import Mathlib

/-!
Formal model of the Taller1_TopicosSoftware job-matching application.

Each definition is a shallow embedding of a function of the repository,
translated from the Python source named in its doc comment.  Machine-level
numeric code (numpy arrays and their byte encodings) is modelled at the
level the verified properties inspect: element counts and byte lengths for
the storage claims, exact real arithmetic for the similarity function, and
exact rational scores for the ranking logic.
-/

namespace Spec2Proof

/-! ## Byte-level facts about the embedding blobs
`CVapp/models.py` and `offer/models.py` define `_default_embedding` as
`np.random.rand(1536).tobytes()`.  `np.random.rand` yields a float64
array, so `tobytes` emits 8 bytes per element; the handlers instead store
`embed(text).tobytes()` where every embedding service produces a float32
array (4 bytes per element) of dimension 1536.  `apply_vacancy` decodes a
stored blob with `np.frombuffer(blob, dtype=np.float32)`, which yields one
float per 4 bytes. -/

/-- Byte width of a numpy float64 element; `np.random.rand` returns float64. -/
def float64_itemsize : Nat := 8

/-- Byte width of a numpy float32 element. -/
def float32_itemsize : Nat := 4

/-- Length argument of `np.random.rand` in `_default_embedding` (both models files). -/
def default_embedding_dim : Nat := 1536

/-- Byte length of the blob `_default_embedding()` returns:
`np.random.rand(1536)` is a float64 array, and `tobytes` emits
`itemsize` bytes per element. -/
def default_embedding_nbytes : Nat := default_embedding_dim * float64_itemsize

/-- Number of float32 values `np.frombuffer(blob, dtype=np.float32)` decodes
from a blob of `nbytes` bytes (numpy: buffer size divided by itemsize). -/
def frombuffer_float32_count (nbytes : Nat) : Nat := nbytes / float32_itemsize

/-- Dimension of the embeddings computed by the embedding services
(`MockEmbeddingService()` keeps its default `dimension = 1536`;
`OpenAIEmbeddingService.embed` builds a float32 array from the
1536-dimension model response). -/
def service_embedding_dim : Nat := 1536

/-- Byte length of the blob `uploadCV` stores on a new Resume:
`_embedding_service.embed(extracted_text).tobytes()`, a float32 array. -/
def uploadCV_blob_nbytes : Nat := service_embedding_dim * float32_itemsize

/-- Byte length of the blob `upload_vacancies` stores on a new Vacancy:
`_embedding_service.embed(extracted_text).tobytes()`, a float32 array. -/
def upload_vacancies_blob_nbytes : Nat := service_embedding_dim * float32_itemsize

/-- The ways a stored embedding blob of a Resume or Vacancy can originate:
the creating handler (`uploadCV` / `upload_vacancies`) passing a computed
blob, or the model field default `_default_embedding`. -/
inductive EmbeddingSource
  | resumeUpload
  | vacancyUpload
  | storageDefault
deriving DecidableEq

/-- Byte length of the stored blob for each origin. -/
def stored_blob_nbytes : EmbeddingSource → Nat
  | .resumeUpload => uploadCV_blob_nbytes
  | .vacancyUpload => upload_vacancies_blob_nbytes
  | .storageDefault => default_embedding_nbytes

/-- The two branches of `apply_vacancy` (CVapp/views.py lines 237-249) for
each of the resume and vacancy embeddings. -/
inductive ApplyEmbeddingBranch
  | decodeStored
  | computeAndPersist
deriving DecidableEq

/-- Branch selection in `apply_vacancy`: `if resume.embedding:` — a Python
bytes value is truthy exactly when it is non-empty. -/
def apply_embedding_branch (nbytes : Nat) : ApplyEmbeddingBranch :=
  if 0 < nbytes then .decodeStored else .computeAndPersist

/-! ## Extraction strategy selection
`_get_extraction_strategy` appears identically in `CVapp/views.py` and
`offer/views.py`:
`ext = filename.rsplit(".", 1)[-1].lower(); if ext == "pdf": ...` -/

/-- The two concrete `FileExtractionStrategy` classes of `CVapp/services.py`. -/
inductive ExtractionStrategy
  | pdfStrategy
  | textStrategy
deriving DecidableEq

/-- Python `filename.rsplit(".", 1)[-1]`: the characters after the last dot,
or the whole string when it has no dot. -/
def lastDotSegment (s : String) : String :=
  String.mk ((s.data.reverse.takeWhile (fun c => c ≠ '.')).reverse)

/-- Lower-case a string character by character (Python `str.lower` on the
ASCII filenames the selector compares against "pdf"). -/
def lowerString (s : String) : String :=
  String.mk (s.data.map Char.toLower)

/-- `_get_extraction_strategy(filename)` from CVapp/views.py lines 49-54 and
offer/views.py lines 53-57. -/
def _get_extraction_strategy (filename : String) : ExtractionStrategy :=
  let ext := lowerString (lastDotSegment filename)
  if ext = "pdf" then .pdfStrategy else .textStrategy

/-- The predicate the claim quantifies with: the filename ends in ".pdf" in
any letter case (its last four characters are a dot followed by p, d, f in
either case). -/
def endsWithDotPdfCI (s : String) : Bool :=
  match s.data.reverse with
  | c1 :: c2 :: c3 :: c4 :: _ =>
      (c1 == 'f' || c1 == 'F') && (c2 == 'd' || c2 == 'D') &&
      (c3 == 'p' || c3 == 'P') && c4 == '.'
  | _ => false

/-! ## Observer subject (notifications/services.py)
`NotificationSubject` keeps `self._observers : List`; `register` appends and
`unregister` calls `self._observers.remove(observer)`.  Python
`list.remove` deletes the first occurrence and raises `ValueError` when the
value is absent; the model returns `Except Unit` with `.error ()` standing
for the raised `ValueError`. -/

/-- Python `list.remove(x)`: delete the first occurrence of `x`, or raise
`ValueError` (modelled as `.error ()`) when `x` is absent. -/
def pyListRemove (x : Nat) : List Nat → Except Unit (List Nat)
  | [] => .error ()
  | y :: ys =>
      if y = x then .ok ys
      else (pyListRemove x ys).map (fun rest => y :: rest)

/-- `NotificationSubject.unregister(observer)`: exactly
`self._observers.remove(observer)` (observers identified by id). -/
def NotificationSubject.unregister (observers : List Nat) (observer : Nat) :
    Except Unit (List Nat) :=
  pyListRemove observer observers

/-! ## Vacancy state toggle (offer/views.py lines 154-171) -/

/-- State transform of `change_state_vacancy` after the owner check: `open`
becomes `closed`, `closed` becomes `open`, anything else falls through to
the final redirect without a save. -/
def toggle_vacancy_state (state : String) : String :=
  if state = "open" then "closed"
  else if state = "closed" then "open"
  else state

/-- Full `change_state_vacancy` step: the session user must own the vacancy,
otherwise the state is untouched. -/
def change_state_vacancy (sessionUserId ownerId : Nat) (state : String) : String :=
  if ownerId ≠ sessionUserId then state else toggle_vacancy_state state

/-! ## Applying a resume to a vacancy (CVapp/views.py lines 250-261)
The database table of `Applied_resume` rows is modelled as the list of
created records in creation order; a record keeps the resume id, the
vacancy id, its `state` (the model field default is "applied") and the
match rate. -/

/-- One `Applied_resume` row. -/
structure AppliedResumeRow where
  resumeId : Nat
  vacancyId : Nat
  state : String
  match_rate : ℚ
deriving DecidableEq

/-- Django `Applied_resume.objects.filter(resume=r, vacancy=v).exists()`. -/
def appliedExists (db : List AppliedResumeRow) (r v : Nat) : Bool :=
  db.any (fun row => row.resumeId == r && row.vacancyId == v)

/-- Number of `Applied_resume` rows matching the (resume, vacancy) pair. -/
def appliedCount (db : List AppliedResumeRow) (r v : Nat) : Nat :=
  (db.filter (fun row => row.resumeId == r && row.vacancyId == v)).length

/-- The create-or-reject tail of `apply_vacancy`: when a row for the pair
already exists, warn (`Bool` result `false`) and leave the table unchanged;
otherwise `Applied_resume.objects.create(resume, vacancy, match_rate)`
inserts one row whose `state` takes the model default "applied". -/
def apply_vacancy (db : List AppliedResumeRow) (r v : Nat) (match_rate : ℚ) :
    List AppliedResumeRow × Bool :=
  if appliedExists db r v then (db, false)
  else (db ++ [⟨r, v, "applied", match_rate⟩], true)

/-! ## Accepting and rejecting applications (offer/views.py lines 174-218) -/

/-- The mutable part of an `Applied_resume` the accept/reject handlers can
touch, together with the id of the recruiter who owns its vacancy. -/
structure ApplicationState where
  state : String
  feedback : Option String
  vacancyOwnerId : Nat
deriving DecidableEq

/-- `accept_resume` after authentication: the session user must own the
vacancy and the row must still be in state "applied", else nothing is
written and no observer notification fires.  The `Bool` result records
whether `notification_subject.notify` ran. -/
def accept_resume (sessionUserId : Nat) (a : ApplicationState) :
    ApplicationState × Bool :=
  if a.vacancyOwnerId ≠ sessionUserId then (a, false)
  else if a.state ≠ "applied" then (a, false)
  else ({ a with state := "accepted" }, true)

/-- `reject_resume`, same gating as `accept_resume` with target state
"rejected". -/
def reject_resume (sessionUserId : Nat) (a : ApplicationState) :
    ApplicationState × Bool :=
  if a.vacancyOwnerId ≠ sessionUserId then (a, false)
  else if a.state ≠ "applied" then (a, false)
  else ({ a with state := "rejected" }, true)

/-! ## CV improvement fallback (CVapp/views.py lines 178-199)
The hosted chat-completion call sits in a `try` block whose
`except Exception` catches every failure (missing credential, import
failure, network error, bad response shape).  The outcome of the call is
modelled as `Except String String`: `.ok text` is a successful completion,
`.error e` any raised exception `e`. -/

/-- The assignment `mejorar_cv` makes to `resume.upgraded_cv`, paired with
whether the degraded-service warning was shown. -/
def mejorar_cv_upgraded (chatOutcome : Except String String)
    (extracted_text : String) : String × Bool :=
  match chatOutcome with
  | .ok new_cv => (new_cv, false)
  | .error _ => (extracted_text, true)

/-- Modelled outcome of the hosted call when no AI credential is configured:
`OpenAI(api_key=settings.OPENAI_API_KEY)` raises before any request is
sent, so the outcome is an exception. -/
def chat_outcome_without_credential : Except String String :=
  .error "AttributeError: settings has no attribute OPENAI_API_KEY"

/-! ## Cosine similarity (CVapp/services.py lines 90-95)
Float arithmetic is modelled by exact real arithmetic: vectors are lists of
reals, `np.dot` is the elementwise dot product, `np.linalg.norm` the
Euclidean norm, and the guard `if denom == 0: return 0.0` is kept as
written. -/

/-- `np.dot(a, b)` on equal-length one-dimensional arrays. -/
def np_dot : List ℝ → List ℝ → ℝ
  | a :: as, b :: bs => a * b + np_dot as bs
  | _, _ => 0

/-- `np.linalg.norm(v)`: the Euclidean norm. -/
noncomputable def linalg_norm (v : List ℝ) : ℝ :=
  Real.sqrt (np_dot v v)

/-- `cosine_similarity(a, b)` from CVapp/services.py:
`denom = norm(a) * norm(b); if denom == 0: return 0.0; return dot(a,b) / denom`. -/
noncomputable def cosine_similarity (a b : List ℝ) : ℝ :=
  let denom := linalg_norm a * linalg_norm b
  if denom = 0 then 0 else np_dot a b / denom

/-! ## Batch ranking (offer/views.py lines 60-122)
The per-file loop of `uploadCVS` has already produced one
`{filename, cv_text, score}` dict per uploaded file, appended in upload
order; scores are modelled as exact rationals.  `uploadCVS` then tracks the
best entry with `best_score` initialised to `-1.0` and the strict
comparison `score > best_score`, and finally sorts the ranking with
`ranking.sort(key=lambda x: x["score"], reverse=True)` — a stable
descending sort. -/

/-- One ranking entry dict of `uploadCVS`. -/
structure RankingEntry where
  filename : String
  cv_text : String
  score : ℚ
deriving DecidableEq

/-- Insert an entry into an already descending-sorted list, after every
strictly greater score and before every equal or smaller one — exactly
where a stable descending sort puts an element that precedes the rest of
the list in upload order. -/
def insertDesc (e : RankingEntry) : List RankingEntry → List RankingEntry
  | [] => [e]
  | y :: ys => if e.score < y.score then y :: insertDesc e ys else e :: y :: ys

/-- `ranking.sort(key=lambda x: x["score"], reverse=True)`: stable sort,
descending by score, ties kept in original order. -/
def sortDescByScore : List RankingEntry → List RankingEntry
  | [] => []
  | e :: rest => insertDesc e (sortDescByScore rest)

/-- The best-entry tracking loop of `uploadCVS`: fold over the files in
upload order carrying `(best_cv, best_score)`, updating on the strict
comparison `score > best_score`. -/
def bestLoop : Option RankingEntry → ℚ → List RankingEntry →
    Option RankingEntry × ℚ
  | best_cv, best_score, [] => (best_cv, best_score)
  | best_cv, best_score, e :: rest =>
      if best_score < e.score then bestLoop (some e) e.score rest
      else bestLoop best_cv best_score rest

/-- The ranking `uploadCVS` renders, as a function of the computed entries. -/
def uploadCVS_ranking (entries : List RankingEntry) : List RankingEntry :=
  sortDescByScore entries

/-- The `best_cv` value `uploadCVS` renders: the loop starts from
`best_cv = None`, `best_score = -1.0`. -/
def uploadCVS_best (entries : List RankingEntry) : Option RankingEntry :=
  (bestLoop none (-1) entries).1

/-- Maximum score of a non-empty entry list (sentinel `-1` on the empty
list, never used there). -/
def listMaxScore : List RankingEntry → ℚ
  | [] => -1
  | [e] => e.score
  | e :: f :: rest => max e.score (listMaxScore (f :: rest))

/-- The three-file example of the claim: scores 0.9, 0.3 and 0.6 in upload
order. -/
def exampleEntry1 : RankingEntry := ⟨"cv1.pdf", "text one", 9/10⟩

def exampleEntry2 : RankingEntry := ⟨"cv2.pdf", "text two", 3/10⟩

def exampleEntry3 : RankingEntry := ⟨"cv3.pdf", "text three", 6/10⟩

def exampleEntries : List RankingEntry :=
  [exampleEntry1, exampleEntry2, exampleEntry3]

/-- A single processed file whose score is exactly `-1`, the initial value
of `best_score` (cosine similarity of antipodal embeddings). -/
def minusOneEntry : RankingEntry := ⟨"cv.txt", "text", -1⟩

/-! ## Theorems -/

/-- C1: the claim says the storage-level default embedding blob is 1536
32-bit floats, 6144 bytes, decoding to 1536 floats.  The code calls
`np.random.rand(1536)`, a float64 array: the blob is 12288 bytes, and the
float32 decode used by `apply_vacancy` yields 3072 values — the docstring
of `Resume` ("1536 floats") and the float32 decode mark the float64
default as the slip. -/
theorem C1_default_embedding_blob_is_float64 :
    default_embedding_nbytes = 12288 ∧
    frombuffer_float32_count default_embedding_nbytes = 3072 ∧
    default_embedding_nbytes ≠ 6144 ∧
    frombuffer_float32_count default_embedding_nbytes ≠ 1536 := by
  decide

/-- C10: every stored embedding blob — computed by the resume or vacancy
upload handler, or filled in by the model default — is non-empty, so the
`if resume.embedding:` / `if vacancy.embedding:` tests in `apply_vacancy`
always take the decode branch and the compute-and-persist branches are
unreachable for records created through the handlers. -/
theorem C10_apply_vacancy_always_decodes (src : EmbeddingSource) :
    0 < stored_blob_nbytes src ∧
    apply_embedding_branch (stored_blob_nbytes src) = .decodeStored := by
  cases src <;> exact ⟨by decide, by decide⟩

/-- C6: the claim says `unregister` on an absent observer must not raise.
The code calls `self._observers.remove(observer)`, and Python `list.remove`
raises `ValueError` when the value is absent: on the empty observer list
(or any list not containing the observer) the call errors; when the
observer is present its first occurrence is removed. -/
theorem C6_unregister_raises_when_absent :
    NotificationSubject.unregister [] 0 = .error () ∧
    NotificationSubject.unregister [7, 3] 5 = .error () ∧
    NotificationSubject.unregister [7, 3, 5, 3] 3 = .ok [7, 5, 3] := by
  exact ⟨rfl, rfl, rfl⟩

/-- C7: whatever exception the hosted chat-completion call raises — in
particular the one raised when no AI credential is configured — the
`except Exception` branch of `mejorar_cv` sets the upgraded text to the
original extracted text and shows the degraded-service warning, and the
operation always completes with that pair. -/
theorem C7_mejorar_cv_silent_fallback :
    (∀ (err extracted : String),
        mejorar_cv_upgraded (.error err) extracted = (extracted, true))
  ∧ (∀ extracted : String,
        mejorar_cv_upgraded chat_outcome_without_credential extracted =
          (extracted, true)) := by
  exact ⟨fun _ _ => rfl, fun _ => rfl⟩

/-- The toggle transform is an involution on every string state. -/
theorem toggle_vacancy_state_involutive (s : String) :
    toggle_vacancy_state (toggle_vacancy_state s) = s := by
  by_cases h1 : s = "open"
  · subst h1; decide
  · by_cases h2 : s = "closed"
    · subst h2; decide
    · simp [toggle_vacancy_state, h1, h2]

/-- When the session user owns the vacancy, `change_state_vacancy` is the
plain toggle. -/
theorem change_state_vacancy_owner (uid : Nat) (s : String) :
    change_state_vacancy uid uid s = toggle_vacancy_state s := by
  simp [change_state_vacancy]

/-- C8: the owner-applied state toggle sends `open` to `closed` and
`closed` to `open`, leaves every other stored state unchanged, and is an
involution, so any even number of toggles restores the original state. -/
theorem C8_change_state_vacancy_toggle :
    (∀ uid : Nat, change_state_vacancy uid uid "open" = "closed")
  ∧ (∀ uid : Nat, change_state_vacancy uid uid "closed" = "open")
  ∧ (∀ (uid : Nat) (s : String), s ≠ "open" → s ≠ "closed" →
      change_state_vacancy uid uid s = s)
  ∧ (∀ (uid : Nat) (s : String),
      change_state_vacancy uid uid (change_state_vacancy uid uid s) = s)
  ∧ (∀ (uid n : Nat) (s : String),
      (change_state_vacancy uid uid)^[2 * n] s = s) := by
  have hinv : ∀ (uid : Nat) (s : String),
      change_state_vacancy uid uid (change_state_vacancy uid uid s) = s := by
    intro uid s
    rw [change_state_vacancy_owner, change_state_vacancy_owner]
    exact toggle_vacancy_state_involutive s
  refine ⟨fun uid => by simp [change_state_vacancy, toggle_vacancy_state],
    fun uid => by simp [change_state_vacancy, toggle_vacancy_state], ?_, hinv, ?_⟩
  · intro uid s h1 h2
    simp [change_state_vacancy, toggle_vacancy_state, h1, h2]
  · intro uid n s
    induction n with
    | zero => simp
    | succ k ih =>
        have h2 : 2 * (k + 1) = 2 * k + 2 := by ring
        rw [h2, Function.iterate_add_apply]
        have hsq : (change_state_vacancy uid uid)^[2] s = s := by
          rw [show (2 : Nat) = 1 + 1 from rfl, Function.iterate_add_apply]
          simp [hinv uid s]
        rw [hsq, ih]

/-- `takeWhile` on a list whose first three elements satisfy the predicate
and whose fourth does not collects exactly the first three. -/
theorem takeWhile_four_stop (p : Char → Bool) (a b c d : Char) (t : List Char)
    (ha : p a = true) (hb : p b = true) (hc : p c = true) (hd : p d = false) :
    (a :: b :: c :: d :: t).takeWhile p = [a, b, c] := by
  simp [List.takeWhile_cons, ha, hb, hc, hd]

/-- A filename that ends in ".pdf" in any letter case has last-dot segment
lower-casing to "pdf". -/
theorem lower_ext_of_endsWithDotPdfCI (filename : String)
    (h : endsWithDotPdfCI filename = true) :
    lowerString (lastDotSegment filename) = "pdf" := by
  unfold endsWithDotPdfCI at h
  obtain ⟨r, hr⟩ : ∃ r, filename.data.reverse = r := ⟨_, rfl⟩
  rw [hr] at h
  rcases r with _ | ⟨c1, _ | ⟨c2, _ | ⟨c3, _ | ⟨c4, t⟩⟩⟩⟩ <;> simp at h
  obtain ⟨⟨⟨h1, h2⟩, h3⟩, h4⟩ := h
  subst h4
  rcases h1 with rfl | rfl <;> rcases h2 with rfl | rfl <;> rcases h3 with rfl | rfl <;>
    · simp only [lowerString, lastDotSegment, hr]
      rw [takeWhile_four_stop _ _ _ _ _ t (by decide) (by decide) (by decide) (by decide)]
      decide

/-- The selector returns the PDF strategy exactly when the lower-cased
last-dot segment is "pdf". -/
theorem get_extraction_strategy_pdf_iff (filename : String) :
    _get_extraction_strategy filename = .pdfStrategy ↔
      lowerString (lastDotSegment filename) = "pdf" := by
  constructor
  · intro hpdf
    by_contra hne
    simp [_get_extraction_strategy, hne] at hpdf
  · intro he
    simp [_get_extraction_strategy, he]

/-- C5 counterexample: the bare filename "pdf" has no extension and does
not end in ".pdf", yet the selector returns the PDF strategy, because the
code takes `rsplit(".", 1)[-1]` of a dot-free name — the whole name. -/
theorem C5_counterexample_bare_pdf :
    _get_extraction_strategy "pdf" = .pdfStrategy ∧
    endsWithDotPdfCI "pdf" = false := by
  exact ⟨by decide, by decide⟩

/-- C5 amended: the selector returns the PDF strategy exactly for filenames
whose segment after the last dot — the whole name when it has no dot —
lower-cases to "pdf"; in particular every filename ending in ".pdf" in any
letter case gets the PDF strategy, and every other filename except the
case variants of the bare name "pdf" gets the plain-text strategy. -/
theorem C5_extraction_strategy_amended :
    (∀ filename : String,
        _get_extraction_strategy filename = .pdfStrategy ↔
          lowerString (lastDotSegment filename) = "pdf")
  ∧ (∀ filename : String, endsWithDotPdfCI filename = true →
        _get_extraction_strategy filename = .pdfStrategy) := by
  exact ⟨get_extraction_strategy_pdf_iff, fun filename h =>
    (get_extraction_strategy_pdf_iff filename).mpr
      (lower_ext_of_endsWithDotPdfCI filename h)⟩

/-- A pair with no matching row makes the existence test false. -/
theorem appliedExists_false_of_count_zero (db : List AppliedResumeRow)
    (r v : Nat) (h : appliedCount db r v = 0) :
    appliedExists db r v = false := by
  unfold appliedCount at h
  rw [List.length_eq_zero] at h
  unfold appliedExists
  rcases hany : db.any (fun row => row.resumeId == r && row.vacancyId == v) with _ | _
  · rfl
  · obtain ⟨row, hmem, hp⟩ := List.any_eq_true.mp hany
    exact absurd hp (List.filter_eq_nil.mp h row hmem)

/-- C2: applying a resume to a vacancy with no prior matching row appends
exactly one row whose state is the model default "applied" and reports
success; a second attempt with the same pair is rejected (warning, `false`)
and leaves the table — hence the count of matching rows — unchanged at 1. -/
theorem C2_apply_vacancy_unique (db : List AppliedResumeRow) (r v : Nat)
    (q q' : ℚ) (h : appliedCount db r v = 0) :
    apply_vacancy db r v q = (db ++ [⟨r, v, "applied", q⟩], true) ∧
    appliedCount (db ++ [⟨r, v, "applied", q⟩]) r v = 1 ∧
    apply_vacancy (db ++ [⟨r, v, "applied", q⟩]) r v q' =
      (db ++ [⟨r, v, "applied", q⟩], false) := by
  have hex := appliedExists_false_of_count_zero db r v h
  have hcount : appliedCount (db ++ [⟨r, v, "applied", q⟩]) r v = 1 := by
    unfold appliedCount at h ⊢
    rw [List.length_eq_zero] at h
    rw [List.filter_append, h]
    simp
  have hex2 : appliedExists (db ++ [⟨r, v, "applied", q⟩]) r v = true := by
    unfold appliedExists
    rw [List.any_append]
    simp
  refine ⟨by simp [apply_vacancy, hex], hcount, by simp [apply_vacancy, hex2]⟩

/-- C2 witness at a concrete table: first application of resume 1 to
vacancy 2 on the empty table, then a duplicate attempt. -/
theorem C2_apply_vacancy_unique_witness :
    apply_vacancy [] 1 2 (1/2) = ([⟨1, 2, "applied", 1/2⟩], true) ∧
    appliedCount [⟨1, 2, "applied", (1/2 : ℚ)⟩] 1 2 = 1 ∧
    apply_vacancy [⟨1, 2, "applied", 1/2⟩] 1 2 (1/3) =
      ([⟨1, 2, "applied", 1/2⟩], false) :=
  C2_apply_vacancy_unique [] 1 2 (1/2) (1/3) (by decide)

/-- C3: an application already accepted or rejected is left completely
unchanged by both `accept_resume` and `reject_resume` and fires no
observer notification; conversely either handler writes or notifies only
when the state is still "applied", so the state only moves forward. -/
theorem C3_processed_application_frozen :
    (∀ (uid : Nat) (a : ApplicationState),
        a.state = "accepted" ∨ a.state = "rejected" →
        accept_resume uid a = (a, false) ∧ reject_resume uid a = (a, false))
  ∧ (∀ (uid : Nat) (a : ApplicationState),
        (accept_resume uid a).2 = true → a.state = "applied")
  ∧ (∀ (uid : Nat) (a : ApplicationState),
        (reject_resume uid a).2 = true → a.state = "applied")
  ∧ (∀ (uid : Nat) (a : ApplicationState),
        (accept_resume uid a).1 ≠ a → a.state = "applied")
  ∧ (∀ (uid : Nat) (a : ApplicationState),
        (reject_resume uid a).1 ≠ a → a.state = "applied") := by
  refine ⟨?_, ?_, ?_, ?_, ?_⟩
  · intro uid a h
    have hne : a.state ≠ "applied" := by
      rcases h with h | h <;> rw [h] <;> decide
    by_cases ho : a.vacancyOwnerId = uid
    · exact ⟨by simp [accept_resume, ho, hne], by simp [reject_resume, ho, hne]⟩
    · exact ⟨by simp [accept_resume, ho], by simp [reject_resume, ho]⟩
  · intro uid a h
    unfold accept_resume at h
    split_ifs at h with h1 h2 <;> simp_all
  · intro uid a h
    unfold reject_resume at h
    split_ifs at h with h1 h2 <;> simp_all
  · intro uid a h
    unfold accept_resume at h
    split_ifs at h with h1 h2 <;> simp_all
  · intro uid a h
    unfold reject_resume at h
    split_ifs at h with h1 h2 <;> simp_all

/-- C4: `cosine_similarity` returns exactly 0 when the product of the two
norms is 0 — that is, when either vector has zero norm — and otherwise
returns the dot product divided by the product of the norms; on the unit
vectors of the claim it returns 1 for an identical pair and 0 for an
orthogonal pair. -/
theorem C4_cosine_similarity_spec :
    (∀ a b : List ℝ, linalg_norm a = 0 ∨ linalg_norm b = 0 →
        cosine_similarity a b = 0)
  ∧ (∀ a b : List ℝ, linalg_norm a ≠ 0 → linalg_norm b ≠ 0 →
        cosine_similarity a b = np_dot a b / (linalg_norm a * linalg_norm b))
  ∧ cosine_similarity [1, 0] [1, 0] = 1
  ∧ cosine_similarity [1, 0] [0, 1] = 0 := by
  have hfrac : ∀ a b : List ℝ, linalg_norm a ≠ 0 → linalg_norm b ≠ 0 →
      cosine_similarity a b = np_dot a b / (linalg_norm a * linalg_norm b) := by
    intro a b ha hb
    simp only [cosine_similarity]
    rw [if_neg (mul_ne_zero ha hb)]
  have hdot11 : np_dot [(1 : ℝ), 0] [1, 0] = 1 := by
    norm_num [np_dot]
  have hdot10 : np_dot [(1 : ℝ), 0] [0, 1] = 0 := by
    norm_num [np_dot]
  have hn1 : linalg_norm [(1 : ℝ), 0] = 1 := by
    rw [linalg_norm, hdot11, Real.sqrt_one]
  have hn2 : linalg_norm [(0 : ℝ), 1] = 1 := by
    rw [linalg_norm]
    norm_num [np_dot, Real.sqrt_one]
  refine ⟨?_, hfrac, ?_, ?_⟩
  · intro a b h
    simp only [cosine_similarity]
    have hz : linalg_norm a * linalg_norm b = 0 := by
      rcases h with h | h <;> rw [h] <;> ring
    rw [if_pos hz]
  · rw [hfrac _ _ (by rw [hn1]; norm_num) (by rw [hn1]; norm_num), hdot11, hn1]
    norm_num
  · rw [hfrac _ _ (by rw [hn1]; norm_num) (by rw [hn2]; norm_num), hdot10]
    norm_num

/-- Inserting into a list is a permutation of consing. -/
theorem insertDesc_perm (e : RankingEntry) (l : List RankingEntry) :
    (insertDesc e l).Perm (e :: l) := by
  induction l with
  | nil => exact List.Perm.refl _
  | cons y ys ih =>
      rw [insertDesc]
      split_ifs with h
      · exact ((ih.cons y).trans (List.Perm.swap e y ys))
      · exact List.Perm.refl _

/-- The stable descending sort is a permutation of its input. -/
theorem sortDescByScore_perm (l : List RankingEntry) :
    (sortDescByScore l).Perm l := by
  induction l with
  | nil => exact List.Perm.refl _
  | cons e rest ih =>
      exact (insertDesc_perm e (sortDescByScore rest)).trans (ih.cons e)

/-- Inserting into a descending-sorted list keeps it descending-sorted. -/
theorem insertDesc_sorted (e : RankingEntry) (l : List RankingEntry)
    (hl : List.Pairwise (fun a b => b.score ≤ a.score) l) :
    List.Pairwise (fun a b => b.score ≤ a.score) (insertDesc e l) := by
  induction l with
  | nil => simp [insertDesc]
  | cons y ys ih =>
      rcases List.pairwise_cons.mp hl with ⟨hy, hys⟩
      rw [insertDesc]
      split_ifs with h
      · rw [List.pairwise_cons]
        refine ⟨?_, ih hys⟩
        intro z hz
        rcases List.mem_cons.mp ((insertDesc_perm e ys).mem_iff.mp hz) with rfl | hmem
        · exact le_of_lt h
        · exact hy z hmem
      · rw [List.pairwise_cons]
        refine ⟨?_, hl⟩
        intro z hz
        rcases List.mem_cons.mp hz with rfl | hmem
        · exact le_of_not_lt h
        · exact le_trans (hy z hmem) (le_of_not_lt h)

/-- The ranking sort yields a descending-sorted list. -/
theorem sortDescByScore_sorted (l : List RankingEntry) :
    List.Pairwise (fun a b => b.score ≤ a.score) (sortDescByScore l) := by
  induction l with
  | nil => simp [sortDescByScore]
  | cons e rest ih => exact insertDesc_sorted e (sortDescByScore rest) ih

/-- Inserting an entry of score `q` puts it in front of the other entries
of score `q`: all entries it passes have strictly greater score. -/
theorem insertDesc_filter_pos (e : RankingEntry) (q : ℚ) (he : e.score = q)
    (l : List RankingEntry) :
    (insertDesc e l).filter (fun x => decide (x.score = q)) =
      e :: l.filter (fun x => decide (x.score = q)) := by
  induction l with
  | nil => simp [insertDesc, he]
  | cons y ys ih =>
      rw [insertDesc]
      split_ifs with h
      · have hy : ¬ y.score = q := by
          rw [← he]
          exact ne_of_gt h
        simp [List.filter_cons, hy, ih]
      · simp [List.filter_cons, he]

/-- Inserting an entry of a different score leaves the score-`q` entries
and their order untouched. -/
theorem insertDesc_filter_neg (e : RankingEntry) (q : ℚ) (he : ¬ e.score = q)
    (l : List RankingEntry) :
    (insertDesc e l).filter (fun x => decide (x.score = q)) =
      l.filter (fun x => decide (x.score = q)) := by
  induction l with
  | nil => simp [insertDesc, he]
  | cons y ys ih =>
      rw [insertDesc]
      split_ifs with h
      · simp [List.filter_cons, ih]
      · simp [List.filter_cons, he]

/-- Stability of the ranking sort: for every score value, the entries with
that score appear in the sorted ranking in their original order. -/
theorem sortDescByScore_stable (l : List RankingEntry) (q : ℚ) :
    (sortDescByScore l).filter (fun x => decide (x.score = q)) =
      l.filter (fun x => decide (x.score = q)) := by
  induction l with
  | nil => rfl
  | cons e rest ih =>
      show (insertDesc e (sortDescByScore rest)).filter _ = _
      by_cases he : e.score = q
      · rw [insertDesc_filter_pos e q he, ih]
        simp [List.filter_cons, he]
      · rw [insertDesc_filter_neg e q he, ih]
        simp [List.filter_cons, he]

/-- Two definitional equations of `listMaxScore`. -/
theorem listMaxScore_singleton (e : RankingEntry) :
    listMaxScore [e] = e.score := rfl

theorem listMaxScore_cons_cons (e f : RankingEntry) (rest : List RankingEntry) :
    listMaxScore (e :: f :: rest) = max e.score (listMaxScore (f :: rest)) := rfl

/-- Every member scores at most the list maximum. -/
theorem score_le_listMaxScore {l : List RankingEntry} {e : RankingEntry}
    (h : e ∈ l) : e.score ≤ listMaxScore l := by
  induction l with
  | nil => cases h
  | cons y ys ih =>
      rcases ys with _ | ⟨f, rest⟩
      · rcases List.mem_singleton.mp h with rfl
        exact le_of_eq (listMaxScore_singleton e).symm
      · rw [listMaxScore_cons_cons]
        rcases List.mem_cons.mp h with rfl | hmem
        · exact le_max_left _ _
        · exact le_trans (ih hmem) (le_max_right _ _)

/-- A non-empty list attains its maximum score. -/
theorem listMaxScore_attained {l : List RankingEntry} (h : l ≠ []) :
    ∃ e ∈ l, e.score = listMaxScore l := by
  induction l with
  | nil => exact absurd rfl h
  | cons y ys ih =>
      rcases ys with _ | ⟨f, rest⟩
      · exact ⟨y, List.mem_singleton_self y, (listMaxScore_singleton y).symm⟩
      · obtain ⟨e, hmem, he⟩ := ih (by simp)
        rw [listMaxScore_cons_cons]
        by_cases hc : y.score ≤ listMaxScore (f :: rest)
        · exact ⟨e, List.mem_cons_of_mem y hmem, by rw [he, max_eq_right hc]⟩
        · exact ⟨y, List.mem_cons_self y _, (max_eq_left (le_of_not_le hc)).symm⟩

/-- When every score is at most the running best, the loop changes nothing. -/
theorem bestLoop_const (b : Option RankingEntry) (s : ℚ)
    (l : List RankingEntry) (h : ∀ e ∈ l, e.score ≤ s) :
    bestLoop b s l = (b, s) := by
  induction l with
  | nil => rfl
  | cons e rest ih =>
      rw [bestLoop]
      rw [if_neg (not_lt.mpr (h e (List.mem_cons_self e rest)))]
      exact ih (fun x hx => h x (List.mem_cons_of_mem e hx))

/-- As soon as some score strictly beats the running best, the loop ends on
the first entry attaining the maximum score of the list. -/
theorem bestLoop_find (b : Option RankingEntry) (s : ℚ) (l : List RankingEntry)
    (h : ∃ e ∈ l, s < e.score) :
    (bestLoop b s l).1 =
      l.find? (fun e => decide (listMaxScore l ≤ e.score)) := by
  induction l generalizing b s with
  | nil =>
      obtain ⟨e, he, _⟩ := h
      cases he
  | cons e rest ih =>
      by_cases hse : s < e.score
      · rw [bestLoop, if_pos hse]
        rcases rest with _ | ⟨f, rrest⟩
        · rw [bestLoop, List.find?_cons_of_pos]
          simp [listMaxScore_singleton]
        · by_cases hrest : ∃ x ∈ f :: rrest, e.score < x.score
          · rw [ih (some e) e.score hrest]
            obtain ⟨x, hx, hex⟩ := hrest
            have hLM : e.score < listMaxScore (f :: rrest) :=
              lt_of_lt_of_le hex (score_le_listMaxScore hx)
            have hM : listMaxScore (e :: f :: rrest) = listMaxScore (f :: rrest) := by
              rw [listMaxScore_cons_cons]
              exact max_eq_right (le_of_lt hLM)
            symm
            rw [List.find?_cons_of_neg]
            · rw [hM]
            · simp only [decide_eq_true_eq, hM]
              exact not_le.mpr hLM
          · push_neg at hrest
            rw [bestLoop_const (some e) e.score _ hrest]
            have hM : listMaxScore (e :: f :: rrest) = e.score := by
              rw [listMaxScore_cons_cons]
              obtain ⟨z, hz, hze⟩ := listMaxScore_attained (l := f :: rrest) (by simp)
              exact max_eq_left (hze ▸ hrest z hz)
            rw [List.find?_cons_of_pos]
            simp [hM]
      · obtain ⟨x, hx, hsx⟩ := h
        have hxr : x ∈ rest := by
          rcases List.mem_cons.mp hx with rfl | hm
          · exact absurd hsx hse
          · exact hm
        rcases rest with _ | ⟨f, rrest⟩
        · cases hxr
        rw [bestLoop, if_neg hse, ih b s ⟨x, hxr, hsx⟩]
        have hLM : s < listMaxScore (f :: rrest) :=
          lt_of_lt_of_le hsx (score_le_listMaxScore hxr)
        have hM : listMaxScore (e :: f :: rrest) = listMaxScore (f :: rrest) := by
          rw [listMaxScore_cons_cons]
          exact max_eq_right (le_trans (le_of_not_lt hse) (le_of_lt hLM))
        symm
        rw [List.find?_cons_of_neg]
        · rw [hM]
        · simp only [decide_eq_true_eq, hM]
          exact not_le.mpr (lt_of_le_of_lt (le_of_not_lt hse) hLM)

/-- The head of the stable descending sort is the first entry attaining the
maximum score. -/
theorem sortDescByScore_head (l : List RankingEntry) :
    (sortDescByScore l).head? =
      l.find? (fun e => decide (listMaxScore l ≤ e.score)) := by
  induction l with
  | nil => rfl
  | cons e rest ih =>
      rcases rest with _ | ⟨f, rrest⟩
      · rw [List.find?_cons_of_pos]
        · rfl
        · simp [listMaxScore_singleton]
      · obtain ⟨y, ys, hys⟩ : ∃ y ys, sortDescByScore (f :: rrest) = y :: ys := by
          rcases hsd : sortDescByScore (f :: rrest) with _ | ⟨y, ys⟩
          · have hlen := (sortDescByScore_perm (f :: rrest)).length_eq
            rw [hsd] at hlen
            simp at hlen
          · exact ⟨y, ys, rfl⟩
        rw [hys, List.head?_cons] at ih
        have hfind : (f :: rrest).find?
            (fun x => decide (listMaxScore (f :: rrest) ≤ x.score)) = some y := ih.symm
        have hyp : listMaxScore (f :: rrest) ≤ y.score := by
          simpa using List.find?_some hfind
        have hymem : y ∈ f :: rrest := List.mem_of_find?_eq_some hfind
        have hyeq : y.score = listMaxScore (f :: rrest) :=
          le_antisymm (score_le_listMaxScore hymem) hyp
        show (insertDesc e (sortDescByScore (f :: rrest))).head? = _
        rw [hys, insertDesc]
        split_ifs with hlt
        · rw [List.head?_cons]
          have hM : listMaxScore (e :: f :: rrest) = listMaxScore (f :: rrest) := by
            rw [listMaxScore_cons_cons]
            exact max_eq_right (le_of_lt (hyeq ▸ hlt))
          rw [List.find?_cons_of_neg]
          · rw [hM, hfind]
          · simp only [decide_eq_true_eq, hM]
            exact not_le.mpr (hyeq ▸ hlt)
        · rw [List.head?_cons]
          have hM : listMaxScore (e :: f :: rrest) = e.score := by
            rw [listMaxScore_cons_cons, ← hyeq]
            exact max_eq_left (le_of_not_lt hlt)
          rw [List.find?_cons_of_pos]
          simp [hM]

/-- C9 counterexample: with a single processed file whose score is exactly
-1 — the initial value of `best_score` — the strict comparison
`score > best_score` never fires, so `best_cv` stays `None` while the
sorted ranking has that entry at its head: the reported best match does
not equal the highest-scoring entry. -/
theorem C9_counterexample_all_scores_minus_one :
    uploadCVS_best [minusOneEntry] = none ∧
    (uploadCVS_ranking [minusOneEntry]).head? = some minusOneEntry ∧
    uploadCVS_best [minusOneEntry] ≠ (uploadCVS_ranking [minusOneEntry]).head? := by
  refine ⟨rfl, rfl, ?_⟩
  intro hcontra
  exact Option.noConfusion hcontra

/-- C9 amended: the returned ranking is a permutation of the computed
entries, sorted descending by score with entries of equal score kept in
original upload order; whenever at least one score exceeds -1 (the
initial `best_score`, so in particular for the example scores 0.9, 0.3,
0.6) the reported best match equals the head of the sorted ranking, while
if every score is at most -1 no best match is reported. -/
theorem C9_uploadCVS_ranking_amended :
    (∀ entries : List RankingEntry,
        List.Pairwise (fun a b => b.score ≤ a.score) (uploadCVS_ranking entries))
  ∧ (∀ entries : List RankingEntry, (uploadCVS_ranking entries).Perm entries)
  ∧ (∀ (entries : List RankingEntry) (q : ℚ),
        (uploadCVS_ranking entries).filter (fun x => decide (x.score = q)) =
          entries.filter (fun x => decide (x.score = q)))
  ∧ (∀ entries : List RankingEntry, (∃ e ∈ entries, -1 < e.score) →
        uploadCVS_best entries = (uploadCVS_ranking entries).head?)
  ∧ uploadCVS_ranking exampleEntries =
      [exampleEntry1, exampleEntry3, exampleEntry2]
  ∧ uploadCVS_best exampleEntries = some exampleEntry1 := by
  refine ⟨sortDescByScore_sorted, sortDescByScore_perm, sortDescByScore_stable,
    ?_,
    by norm_num [uploadCVS_ranking, sortDescByScore, insertDesc, exampleEntries,
      exampleEntry1, exampleEntry2, exampleEntry3],
    by norm_num [uploadCVS_best, bestLoop, exampleEntries,
      exampleEntry1, exampleEntry2, exampleEntry3]⟩
  intro entries h
  rw [uploadCVS_best, uploadCVS_ranking, sortDescByScore_head,
    bestLoop_find none (-1) entries h]

end Spec2Proof
